import Mathlib

/-!
Verification of the geometric conformation-sampling core of qFit
(`src/qfit/samplers.py`) against its specification.

The embedding models real-number geometry exactly (ℝ instead of IEEE
floats).  Coordinate arrays are `List Vec3`, atom selections are `List ℕ`,
and the in-place numpy mutations of the source become explicit
state-passing functions.  The elementary rotation builders `Rz`/`Ry` live
in `qfit/structure/math.py`, which is not part of the provided sources;
they are modelled from the specification (section 4.1).
-/

open Real

/-- A 3D point or vector (one row of a numpy `(n, 3)` coordinate array). -/
structure Vec3 where
  x : ℝ
  y : ℝ
  z : ℝ

/-- A 3×3 real matrix, row major: `mAB` is row `A`, column `B`. -/
structure Mat3 where
  m00 : ℝ
  m01 : ℝ
  m02 : ℝ
  m10 : ℝ
  m11 : ℝ
  m12 : ℝ
  m20 : ℝ
  m21 : ℝ
  m22 : ℝ

theorem Vec3.eq_iff_xyz {a b : Vec3} : a = b ↔ a.x = b.x ∧ a.y = b.y ∧ a.z = b.z := by
  cases a; cases b; simp

theorem Mat3.ext' {a b : Mat3}
    (h00 : a.m00 = b.m00) (h01 : a.m01 = b.m01) (h02 : a.m02 = b.m02)
    (h10 : a.m10 = b.m10) (h11 : a.m11 = b.m11) (h12 : a.m12 = b.m12)
    (h20 : a.m20 = b.m20) (h21 : a.m21 = b.m21) (h22 : a.m22 = b.m22) : a = b := by
  cases a; cases b; simp_all

def Vec3.add (a b : Vec3) : Vec3 := ⟨a.x + b.x, a.y + b.y, a.z + b.z⟩

def Vec3.sub (a b : Vec3) : Vec3 := ⟨a.x - b.x, a.y - b.y, a.z - b.z⟩

instance : Add Vec3 := ⟨Vec3.add⟩

instance : Sub Vec3 := ⟨Vec3.sub⟩

/-- Scalar division of a vector (numpy `v / s`; division by zero follows
Lean's `x / 0 = 0` convention, standing in for the IEEE `nan`/`inf`
results, which fail the downstream `allclose` verification just as the
zero vector does). -/
noncomputable def Vec3.divS (a : Vec3) (s : ℝ) : Vec3 := ⟨a.x / s, a.y / s, a.z / s⟩

/-- `np.cross` of two 3-vectors. -/
def Vec3.cross (a b : Vec3) : Vec3 :=
  ⟨a.y * b.z - a.z * b.y, a.z * b.x - a.x * b.z, a.x * b.y - a.y * b.x⟩

/-- `np.linalg.norm` of a 3-vector. -/
noncomputable def Vec3.norm (a : Vec3) : ℝ := Real.sqrt (a.x ^ 2 + a.y ^ 2 + a.z ^ 2)

/-- `np.linalg.norm(v[:-1])`: the planar (x, y) magnitude used by
`ZAxisAligner` and the bond rotators. -/
noncomputable def Vec3.planarNorm (a : Vec3) : ℝ := Real.sqrt (a.x ^ 2 + a.y ^ 2)

def Mat3.mulVec (m : Mat3) (v : Vec3) : Vec3 :=
  ⟨m.m00 * v.x + m.m01 * v.y + m.m02 * v.z,
   m.m10 * v.x + m.m11 * v.y + m.m12 * v.z,
   m.m20 * v.x + m.m21 * v.y + m.m22 * v.z⟩

def Mat3.mul (a b : Mat3) : Mat3 :=
  ⟨a.m00 * b.m00 + a.m01 * b.m10 + a.m02 * b.m20,
   a.m00 * b.m01 + a.m01 * b.m11 + a.m02 * b.m21,
   a.m00 * b.m02 + a.m01 * b.m12 + a.m02 * b.m22,
   a.m10 * b.m00 + a.m11 * b.m10 + a.m12 * b.m20,
   a.m10 * b.m01 + a.m11 * b.m11 + a.m12 * b.m21,
   a.m10 * b.m02 + a.m11 * b.m12 + a.m12 * b.m22,
   a.m20 * b.m00 + a.m21 * b.m10 + a.m22 * b.m20,
   a.m20 * b.m01 + a.m21 * b.m11 + a.m22 * b.m21,
   a.m20 * b.m02 + a.m21 * b.m12 + a.m22 * b.m22⟩

instance : Mul Mat3 := ⟨Mat3.mul⟩

def Mat3.transpose (a : Mat3) : Mat3 :=
  ⟨a.m00, a.m10, a.m20, a.m01, a.m11, a.m21, a.m02, a.m12, a.m22⟩

def Mat3.one : Mat3 := ⟨1, 0, 0, 0, 1, 0, 0, 0, 1⟩

instance : One Mat3 := ⟨Mat3.one⟩

/-- Determinant of a 3×3 matrix (Laplace expansion along the first row). -/
def Mat3.det (a : Mat3) : ℝ :=
  a.m00 * (a.m11 * a.m22 - a.m12 * a.m21)
    - a.m01 * (a.m10 * a.m22 - a.m12 * a.m20)
    + a.m02 * (a.m10 * a.m21 - a.m11 * a.m20)

theorem Mat3.mul_def (a b : Mat3) : a * b = Mat3.mul a b := rfl

theorem Mat3.one_def : (1 : Mat3) = Mat3.one := rfl

theorem Mat3.eq_iff_entries {a b : Mat3} :
    a = b ↔ a.m00 = b.m00 ∧ a.m01 = b.m01 ∧ a.m02 = b.m02 ∧ a.m10 = b.m10 ∧
      a.m11 = b.m11 ∧ a.m12 = b.m12 ∧ a.m20 = b.m20 ∧ a.m21 = b.m21 ∧ a.m22 = b.m22 := by
  cases a; cases b; simp

theorem Mat3.mul_assoc' (a b c : Mat3) : a * b * c = a * (b * c) := by
  simp only [Mat3.mul_def, Mat3.mul, Mat3.eq_iff_entries]
  refine ⟨by ring, by ring, by ring, by ring, by ring, by ring, by ring, by ring, by ring⟩

theorem Mat3.mul_one' (a : Mat3) : a * 1 = a := by
  simp only [Mat3.mul_def, Mat3.one_def, Mat3.mul, Mat3.one, Mat3.eq_iff_entries]
  refine ⟨by ring, by ring, by ring, by ring, by ring, by ring, by ring, by ring, by ring⟩

theorem Mat3.one_mul' (a : Mat3) : 1 * a = a := by
  simp only [Mat3.mul_def, Mat3.one_def, Mat3.mul, Mat3.one, Mat3.eq_iff_entries]
  refine ⟨by ring, by ring, by ring, by ring, by ring, by ring, by ring, by ring, by ring⟩

/-- Modelled from the spec: `qfit/structure/math.py` is not among the
provided sources.  Section 4.1: `RotateZ(angle_radians)` is the standard
right-handed rotation about the Z axis. -/
noncomputable def Rz (theta : ℝ) : Mat3 :=
  ⟨Real.cos theta, -Real.sin theta, 0,
   Real.sin theta, Real.cos theta, 0,
   0, 0, 1⟩

/-- Modelled from the spec: `qfit/structure/math.py` is not among the
provided sources.  Section 4.1: `RotateY(angle_radians)` is the standard
right-handed rotation about the Y axis. -/
noncomputable def Ry (theta : ℝ) : Mat3 :=
  ⟨Real.cos theta, 0, Real.sin theta,
   0, 1, 0,
   -Real.sin theta, 0, Real.cos theta⟩

/-- `np.deg2rad`. -/
noncomputable def deg2rad (d : ℝ) : ℝ := d * (Real.pi / 180)

theorem Rz_mul_transpose (t : ℝ) : Rz t * (Rz t).transpose = 1 := by
  have h := Real.sin_sq_add_cos_sq t
  simp only [Mat3.mul_def, Mat3.one_def, Mat3.mul, Mat3.one, Mat3.transpose, Rz, Mat3.eq_iff_entries]
  refine ⟨by nlinarith, by ring, by ring, by ring, by nlinarith, by ring, by ring, by ring,
    by ring⟩

theorem Ry_mul_transpose (t : ℝ) : Ry t * (Ry t).transpose = 1 := by
  have h := Real.sin_sq_add_cos_sq t
  simp only [Mat3.mul_def, Mat3.one_def, Mat3.mul, Mat3.one, Mat3.transpose, Ry, Mat3.eq_iff_entries]
  refine ⟨by nlinarith, by ring, by ring, by ring, by ring, by ring, by ring, by ring,
    by nlinarith⟩

/-! ## ZAxisAligner (`samplers.py` lines 356-383)

The constructor's intermediate values are exposed as staged definitions so
that the verification predicate (`zAlignOK`, the `np.allclose` check of
line 379) is shared between the embedding and the theorems. -/

/-- numpy's `allclose` default absolute tolerance. -/
noncomputable def npAtol : ℝ := 1 / 10 ^ 8

/-- numpy's `allclose` default relative tolerance. -/
noncomputable def npRtol : ℝ := 1 / 10 ^ 5

/-- `np.allclose(a, b)` componentwise on 3-vectors. -/
def allclose3 (a b : Vec3) : Prop :=
  |a.x - b.x| ≤ npAtol + npRtol * |b.x| ∧
  |a.y - b.y| ≤ npAtol + npRtol * |b.y| ∧
  |a.z - b.z| ≤ npAtol + npRtol * |b.z|

noncomputable instance (a b : Vec3) : Decidable (allclose3 a b) := by
  unfold allclose3; infer_instance

/-- Line 361: `axis = axis / np.linalg.norm(axis[:-1])`. -/
noncomputable def zAlignNormed (axis : Vec3) : Vec3 := axis.divS axis.planarNorm

/-- Lines 362-364: azimuthal angle, sign flipped when the y component is
negative. -/
noncomputable def zAlignXAngle (axis : Vec3) : ℝ :=
  if (zAlignNormed axis).y < 0 then -Real.arccos (zAlignNormed axis).x
  else Real.arccos (zAlignNormed axis).x

/-- Line 368: the vector after cancelling the azimuthal angle. -/
noncomputable def zAlignAfterRz (axis : Vec3) : Vec3 :=
  (Rz (zAlignXAngle axis)).transpose.mulVec (zAlignNormed axis)

/-- Lines 371-373: polar angle, sign flipped when the rotated x component
is negative. -/
noncomputable def zAlignZAngle (axis : Vec3) : ℝ :=
  if (zAlignAfterRz axis).x < 0 then
    -Real.arccos ((zAlignAfterRz axis).z / (zAlignAfterRz axis).norm)
  else Real.arccos ((zAlignAfterRz axis).z / (zAlignAfterRz axis).norm)

/-- Line 378: the fully aligned, renormalized vector that is verified. -/
noncomputable def zAlignCheckVec (axis : Vec3) : Vec3 :=
  ((Ry (zAlignZAngle axis)).transpose.mulVec (zAlignAfterRz axis)).divS
    (zAlignAfterRz axis).norm

/-- Line 379: the `np.allclose(axis, [0, 0, 1])` verification. -/
abbrev zAlignOK (axis : Vec3) : Prop := allclose3 (zAlignCheckVec axis) ⟨0, 0, 1⟩

/-- The alignment transform pair (`backward = forward⁻¹ = forwardᵀ`). -/
structure ZAxisAligner where
  backward_rotation : Mat3
  forward_rotation : Mat3

/-- `ZAxisAligner.__init__`: raises `ValueError` naming the computed axis
(modelled as `Except.error` carrying the aligned vector) exactly when the
`allclose` verification fails; otherwise yields the rotation pair of
lines 382-383. -/
noncomputable def mkZAxisAligner (axis : Vec3) : Except Vec3 ZAxisAligner :=
  if zAlignOK axis then
    Except.ok
      ⟨(Ry (zAlignZAngle axis)).transpose * (Rz (zAlignXAngle axis)).transpose,
       Rz (zAlignXAngle axis) * Ry (zAlignZAngle axis)⟩
  else Except.error (zAlignCheckVec axis)

/-- `v / np.linalg.norm(v)`: the unit-normalized vector. -/
noncomputable def Vec3.unit (v : Vec3) : Vec3 := v.divS v.norm

theorem Vec3.planarNorm_nonneg (v : Vec3) : 0 ≤ v.planarNorm := Real.sqrt_nonneg _

theorem Vec3.planarNorm_sq (v : Vec3) : v.planarNorm ^ 2 = v.x ^ 2 + v.y ^ 2 :=
  Real.sq_sqrt (by positivity)

theorem Vec3.planarNorm_eq_zero_iff (v : Vec3) :
    v.planarNorm = 0 ↔ v.x = 0 ∧ v.y = 0 := by
  unfold Vec3.planarNorm
  rw [Real.sqrt_eq_zero (by positivity)]
  constructor
  · intro h
    constructor <;> nlinarith [sq_nonneg v.x, sq_nonneg v.y]
  · rintro ⟨hx, hy⟩
    rw [hx, hy]; ring

theorem Mat3.mul_mulVec (a b : Mat3) (v : Vec3) :
    (a * b).mulVec v = a.mulVec (b.mulVec v) := by
  simp only [Mat3.mul_def, Mat3.mul, Mat3.mulVec, Vec3.eq_iff_xyz]
  refine ⟨by ring, by ring, by ring⟩

theorem Mat3.mulVec_divS (m : Mat3) (u : Vec3) (s : ℝ) :
    m.mulVec (u.divS s) = (m.mulVec u).divS s := by
  simp only [Mat3.mulVec, Vec3.divS, Vec3.eq_iff_xyz]
  refine ⟨by ring, by ring, by ring⟩

theorem Vec3.normed_sq_one (v : Vec3) (hp : v.planarNorm ≠ 0) :
    (v.x / v.planarNorm) ^ 2 + (v.y / v.planarNorm) ^ 2 = 1 := by
  have hsq := v.planarNorm_sq
  field_simp
  linarith

theorem zAlignXAngle_cos_sin (v : Vec3) (hp : v.planarNorm ≠ 0) :
    Real.cos (zAlignXAngle v) = v.x / v.planarNorm ∧
    Real.sin (zAlignXAngle v) = v.y / v.planarNorm := by
  have hXY := v.normed_sq_one hp
  have hXlo : -1 ≤ v.x / v.planarNorm := by
    nlinarith [sq_nonneg (v.x / v.planarNorm + 1), sq_nonneg (v.y / v.planarNorm)]
  have hXhi : v.x / v.planarNorm ≤ 1 := by
    nlinarith [sq_nonneg (v.x / v.planarNorm - 1), sq_nonneg (v.y / v.planarNorm)]
  have hc := Real.cos_arccos hXlo hXhi
  have hs : Real.sin (Real.arccos (v.x / v.planarNorm)) = |v.y / v.planarNorm| := by
    rw [Real.sin_arccos]
    rw [show (1 : ℝ) - (v.x / v.planarNorm) ^ 2 = (v.y / v.planarNorm) ^ 2 by linarith]
    exact Real.sqrt_sq_eq_abs _
  have hnx : (zAlignNormed v).x = v.x / v.planarNorm := rfl
  have hny : (zAlignNormed v).y = v.y / v.planarNorm := rfl
  unfold zAlignXAngle
  rw [hnx, hny]
  by_cases hy : v.y / v.planarNorm < 0
  · rw [if_pos hy, Real.cos_neg, Real.sin_neg, hc, hs, abs_of_neg hy]
    exact ⟨rfl, by ring⟩
  · rw [if_neg hy, hc, hs, abs_of_nonneg (not_lt.mp hy)]
    exact ⟨rfl, rfl⟩

theorem zAlignAfterRz_eq (v : Vec3) (hp : v.planarNorm ≠ 0) :
    zAlignAfterRz v = ⟨1, 0, v.z / v.planarNorm⟩ := by
  obtain ⟨hc, hs⟩ := zAlignXAngle_cos_sin v hp
  have hXY := v.normed_sq_one hp
  have hnx : (zAlignNormed v).x = v.x / v.planarNorm := rfl
  have hny : (zAlignNormed v).y = v.y / v.planarNorm := rfl
  have hnz : (zAlignNormed v).z = v.z / v.planarNorm := rfl
  unfold zAlignAfterRz
  simp only [Mat3.transpose, Rz, Mat3.mulVec, hnx, hny, hnz, hc, hs, Vec3.eq_iff_xyz]
  refine ⟨by linear_combination hXY, by ring, by ring⟩

theorem zAlignAfterRz_norm (v : Vec3) (hp : v.planarNorm ≠ 0) :
    (zAlignAfterRz v).norm = Real.sqrt (1 + (v.z / v.planarNorm) ^ 2) := by
  rw [zAlignAfterRz_eq v hp]
  unfold Vec3.norm
  norm_num


theorem zAlignZAngle_cos_sin (v : Vec3) (hp : v.planarNorm ≠ 0) :
    Real.cos (zAlignZAngle v) =
      (v.z / v.planarNorm) / Real.sqrt (1 + (v.z / v.planarNorm) ^ 2) ∧
    Real.sin (zAlignZAngle v) = 1 / Real.sqrt (1 + (v.z / v.planarNorm) ^ 2) := by
  set Zc := v.z / v.planarNorm with hZc
  have hm_pos : 0 < Real.sqrt (1 + Zc ^ 2) := Real.sqrt_pos.mpr (by positivity)
  have hm_sq : Real.sqrt (1 + Zc ^ 2) ^ 2 = 1 + Zc ^ 2 := Real.sq_sqrt (by positivity)
  set m := Real.sqrt (1 + Zc ^ 2) with hm
  have harg : (zAlignAfterRz v).z / (zAlignAfterRz v).norm = Zc / m := by
    rw [zAlignAfterRz_norm v hp, zAlignAfterRz_eq v hp]
  have hhi' : Zc ≤ m := by nlinarith [hm_sq, hm_pos]
  have hlo' : -m ≤ Zc := by nlinarith [hm_sq, hm_pos]
  have hhi : Zc / m ≤ 1 := (div_le_one hm_pos).mpr hhi'
  have hlo : -1 ≤ Zc / m := by
    rw [neg_le, ← neg_div, div_le_one hm_pos]
    linarith
  have hc := Real.cos_arccos hlo hhi
  have hs : Real.sin (Real.arccos (Zc / m)) = 1 / m := by
    rw [Real.sin_arccos]
    have h1 : (1 : ℝ) - (Zc / m) ^ 2 = (1 / m) ^ 2 := by
      field_simp
      linear_combination hm_sq
    rw [h1, Real.sqrt_sq (by positivity)]
  have hx : (zAlignAfterRz v).x = 1 := by rw [zAlignAfterRz_eq v hp]
  unfold zAlignZAngle
  rw [harg, hx, if_neg (by norm_num)]
  exact ⟨hc, hs⟩

theorem zAlignCheckVec_eq (v : Vec3) (hp : v.planarNorm ≠ 0) :
    zAlignCheckVec v = ⟨0, 0, 1⟩ := by
  obtain ⟨hc, hs⟩ := zAlignZAngle_cos_sin v hp
  set Zc := v.z / v.planarNorm with hZc
  have hm_pos : 0 < Real.sqrt (1 + Zc ^ 2) := Real.sqrt_pos.mpr (by positivity)
  have hm_sq : Real.sqrt (1 + Zc ^ 2) ^ 2 = 1 + Zc ^ 2 := Real.sq_sqrt (by positivity)
  set m := Real.sqrt (1 + Zc ^ 2) with hm
  unfold zAlignCheckVec
  rw [zAlignAfterRz_norm v hp, zAlignAfterRz_eq v hp]
  simp only [Mat3.transpose, Ry, Mat3.mulVec, Vec3.divS, hc, hs, Vec3.eq_iff_xyz, ← hm, ← hZc]
  refine ⟨?_, ?_, ?_⟩
  · rw [div_eq_zero_iff]; left; ring
  · rw [div_eq_zero_iff]; left; ring
  · have hnum : 1 / m * 1 + 0 * 0 + Zc / m * Zc = m := by
      field_simp
      ring_nf
      ring_nf at hm_sq
      linarith [hm_sq]
    rw [hnum, div_self (ne_of_gt hm_pos)]

theorem zAlignCheckVec_of_planar_zero (v : Vec3) (hp0 : v.planarNorm = 0) :
    zAlignCheckVec v = ⟨0, 0, 0⟩ := by
  have hnormed : zAlignNormed v = ⟨0, 0, 0⟩ := by
    unfold zAlignNormed
    rw [hp0]
    simp only [Vec3.divS, div_zero]
  have hafter : zAlignAfterRz v = ⟨0, 0, 0⟩ := by
    unfold zAlignAfterRz
    rw [hnormed]
    simp only [Mat3.mulVec, Vec3.eq_iff_xyz]
    refine ⟨by ring, by ring, by ring⟩
  have hn0 : (Vec3.mk 0 0 0).norm = 0 := by
    unfold Vec3.norm
    norm_num
  unfold zAlignCheckVec
  rw [hafter, hn0]
  simp only [Mat3.mulVec, Vec3.divS, Vec3.eq_iff_xyz]
  norm_num

theorem allclose3_refl_z : allclose3 ⟨0, 0, 1⟩ ⟨0, 0, 1⟩ := by
  unfold allclose3 npAtol npRtol
  norm_num

theorem not_allclose3_zero_z : ¬ allclose3 ⟨0, 0, 0⟩ ⟨0, 0, 1⟩ := by
  unfold allclose3 npAtol npRtol
  norm_num

theorem zAlignOK_iff_planar (v : Vec3) : zAlignOK v ↔ v.planarNorm ≠ 0 := by
  constructor
  · intro h hp0
    rw [zAlignOK, zAlignCheckVec_of_planar_zero v hp0] at h
    exact not_allclose3_zero_z h
  · intro hp
    rw [zAlignOK, zAlignCheckVec_eq v hp]
    exact allclose3_refl_z

theorem zAlign_forward_backward (xa za : ℝ) :
    (Rz xa * Ry za) * ((Ry za).transpose * (Rz xa).transpose) = 1 := by
  rw [← Mat3.mul_assoc' (Rz xa * Ry za) (Ry za).transpose (Rz xa).transpose,
    Mat3.mul_assoc' (Rz xa) (Ry za) (Ry za).transpose, Ry_mul_transpose,
    Mat3.mul_one', Rz_mul_transpose]

theorem Vec3.norm_pos_of_planar (v : Vec3) (hp : v.planarNorm ≠ 0) : 0 < v.norm := by
  have h1 : 0 < v.planarNorm :=
    lt_of_le_of_ne (Vec3.planarNorm_nonneg v) (Ne.symm hp)
  have hsq := v.planarNorm_sq
  apply Real.sqrt_pos.mpr
  nlinarith [sq_nonneg v.z]

theorem zAlign_backward_unit (v : Vec3) (hp : v.planarNorm ≠ 0) :
    ((Ry (zAlignZAngle v)).transpose * (Rz (zAlignXAngle v)).transpose).mulVec
      v.unit = ⟨0, 0, 1⟩ := by
  have hppos : 0 < v.planarNorm :=
    lt_of_le_of_ne (Vec3.planarNorm_nonneg v) (Ne.symm hp)
  have hpsq := v.planarNorm_sq
  obtain ⟨hcx, hsx⟩ := zAlignXAngle_cos_sin v hp
  obtain ⟨hcz, hsz⟩ := zAlignZAngle_cos_sin v hp
  set Zc := v.z / v.planarNorm with hZc
  have hm_pos : 0 < Real.sqrt (1 + Zc ^ 2) := Real.sqrt_pos.mpr (by positivity)
  have hm_sq : Real.sqrt (1 + Zc ^ 2) ^ 2 = 1 + Zc ^ 2 := Real.sq_sqrt (by positivity)
  set m := Real.sqrt (1 + Zc ^ 2) with hm
  have hZp : Zc * v.planarNorm = v.z := by
    rw [hZc]
    field_simp
  have hpm : v.planarNorm * m = v.norm := by
    have hsq2 : (v.planarNorm * m) ^ 2 = v.x ^ 2 + v.y ^ 2 + v.z ^ 2 := by
      have hz2 : v.planarNorm ^ 2 * Zc ^ 2 = v.z ^ 2 := by
        rw [hZc]
        field_simp
      nlinarith [hm_sq, hpsq]
    unfold Vec3.norm
    rw [← hsq2, Real.sqrt_sq (by positivity)]
  have hnorm_pos : 0 < v.norm := v.norm_pos_of_planar hp
  rw [Mat3.mul_mulVec]
  have step1 : (Rz (zAlignXAngle v)).transpose.mulVec v.unit =
      (Vec3.mk v.planarNorm 0 v.z).divS v.norm := by
    unfold Vec3.unit
    rw [Mat3.mulVec_divS]
    simp only [Mat3.transpose, Rz, Mat3.mulVec, hcx, hsx, Vec3.divS, Vec3.eq_iff_xyz]
    refine ⟨?_, ?_, ?_⟩
    · have hnum : v.x / v.planarNorm * v.x + v.y / v.planarNorm * v.y + 0 * v.z =
          v.planarNorm := by
        field_simp
        linarith
      rw [hnum]
    · have h0 : -(v.y / v.planarNorm) * v.x + v.x / v.planarNorm * v.y + 0 * v.z = (0 : ℝ) := by
        ring
      rw [h0]
    · have h1 : 0 * v.x + 0 * v.y + 1 * v.z = v.z := by ring
      rw [h1]
  rw [step1, Mat3.mulVec_divS]
  simp only [Mat3.transpose, Ry, Mat3.mulVec, hcz, hsz, Vec3.divS, Vec3.eq_iff_xyz,
    ← hm, ← hZc]
  refine ⟨?_, ?_, ?_⟩
  · rw [div_eq_zero_iff]; left
    linear_combination (1 / m) * hZp
  · rw [div_eq_zero_iff]; left; ring
  · have hnum2 : 1 / m * v.planarNorm + 0 * 0 + Zc / m * v.z = v.norm := by
      rw [← hpm, ← hZp]
      field_simp
      ring_nf
      ring_nf at hm_sq
      nlinarith [hm_sq]
    rw [hnum2, div_self (ne_of_gt hnorm_pos)]

theorem mkZAxisAligner_eq_ok (v : Vec3) (hp : v.planarNorm ≠ 0) :
    mkZAxisAligner v = Except.ok
      ⟨(Ry (zAlignZAngle v)).transpose * (Rz (zAlignXAngle v)).transpose,
       Rz (zAlignXAngle v) * Ry (zAlignZAngle v)⟩ := by
  unfold mkZAxisAligner
  rw [if_pos ((zAlignOK_iff_planar v).mpr hp)]

/-- Claim C1: for every input axis vector, `ZAxisAligner` construction
either raises the geometry error carrying the computed (aligned) axis, or
establishes that `backward_rotation` maps the unit-normalized input vector
to (0,0,1) — here proved exactly, hence within the 1e-6 tolerance — and
that `forward_rotation @ backward_rotation` is the identity; the error is
raised exactly when the `allclose` verification of the aligned vector
against (0,0,1) fails. -/
theorem zAxisAligner_spec (axis : Vec3) :
    ((∃ e, mkZAxisAligner axis = Except.error e) ↔ ¬ zAlignOK axis) ∧
    (∀ al, mkZAxisAligner axis = Except.ok al →
      al.backward_rotation.mulVec axis.unit = ⟨0, 0, 1⟩ ∧
      al.forward_rotation * al.backward_rotation = 1) := by
  constructor
  · constructor
    · rintro ⟨e, he⟩ hok
      unfold mkZAxisAligner at he
      rw [if_pos hok] at he
      exact Except.noConfusion he
    · intro hnok
      refine ⟨zAlignCheckVec axis, ?_⟩
      unfold mkZAxisAligner
      rw [if_neg hnok]
  · intro al hal
    have hok : zAlignOK axis := by
      by_contra hnok
      unfold mkZAxisAligner at hal
      rw [if_neg hnok] at hal
      exact Except.noConfusion hal
    have hp : axis.planarNorm ≠ 0 := (zAlignOK_iff_planar axis).mp hok
    have hval : al = ⟨(Ry (zAlignZAngle axis)).transpose * (Rz (zAlignXAngle axis)).transpose,
        Rz (zAlignXAngle axis) * Ry (zAlignZAngle axis)⟩ := by
      unfold mkZAxisAligner at hal
      rw [if_pos hok] at hal
      exact (Except.ok.inj hal).symm
    rw [hval]
    exact ⟨zAlign_backward_unit axis hp, zAlign_forward_backward _ _⟩

theorem planarNorm_e1 : (Vec3.mk 1 0 0).planarNorm = 1 := by
  unfold Vec3.planarNorm
  norm_num

theorem zAlignNormed_e1 : zAlignNormed ⟨1, 0, 0⟩ = ⟨1, 0, 0⟩ := by
  unfold zAlignNormed
  rw [planarNorm_e1]
  simp [Vec3.divS]

theorem zAlignXAngle_e1 : zAlignXAngle ⟨1, 0, 0⟩ = 0 := by
  unfold zAlignXAngle
  rw [zAlignNormed_e1]
  norm_num [Real.arccos_one]

theorem zAlignAfterRz_e1 : zAlignAfterRz ⟨1, 0, 0⟩ = ⟨1, 0, 0⟩ := by
  unfold zAlignAfterRz
  rw [zAlignXAngle_e1, zAlignNormed_e1]
  simp [Rz, Mat3.transpose, Mat3.mulVec, Vec3.eq_iff_xyz]

theorem zAlignZAngle_e1 : zAlignZAngle ⟨1, 0, 0⟩ = Real.pi / 2 := by
  have hn : (Vec3.mk 1 0 0).norm = 1 := by
    unfold Vec3.norm
    norm_num
  unfold zAlignZAngle
  rw [zAlignAfterRz_e1, hn]
  norm_num [Real.arccos_zero]

theorem planarNorm_e1_ne : (Vec3.mk 1 0 0).planarNorm ≠ 0 := by
  rw [planarNorm_e1]
  norm_num

theorem mkZAxisAligner_e1 : mkZAxisAligner ⟨1, 0, 0⟩ =
    Except.ok ⟨⟨0, 0, -1, 0, 1, 0, 1, 0, 0⟩, ⟨0, 0, 1, 0, 1, 0, -1, 0, 0⟩⟩ := by
  rw [mkZAxisAligner_eq_ok ⟨1, 0, 0⟩ planarNorm_e1_ne, zAlignXAngle_e1, zAlignZAngle_e1]
  simp [Ry, Rz, Mat3.transpose, Mat3.mul_def, Mat3.mul, Mat3.eq_iff_entries,
    ZAxisAligner.mk.injEq]

/-- Witness for C1 at the concrete axis (1,0,0). -/
theorem zAxisAligner_spec_witness :
    mkZAxisAligner ⟨1, 0, 0⟩ =
      Except.ok ⟨⟨0, 0, -1, 0, 1, 0, 1, 0, 0⟩, ⟨0, 0, 1, 0, 1, 0, -1, 0, 0⟩⟩ ∧
    (Mat3.mk 0 0 (-1) 0 1 0 1 0 0).mulVec (Vec3.unit ⟨1, 0, 0⟩) = ⟨0, 0, 1⟩ ∧
    Mat3.mk 0 0 1 0 1 0 (-1) 0 0 * Mat3.mk 0 0 (-1) 0 1 0 1 0 0 = 1 := by
  have hprops := (zAxisAligner_spec ⟨1, 0, 0⟩).2 _ mkZAxisAligner_e1
  exact ⟨mkZAxisAligner_e1, hprops.1, hprops.2⟩

/-- Claim C10: an input vector whose x and y components are both zero
(already parallel to the Z axis) makes the planar normalization divide by
zero, and `ZAxisAligner` construction fails with the geometry error
rather than producing a valid alignment transform. -/
theorem zAxisAligner_zero_planar_fails (v : Vec3) (hx : v.x = 0) (hy : v.y = 0) :
    mkZAxisAligner v = Except.error ⟨0, 0, 0⟩ := by
  have hp0 : v.planarNorm = 0 := v.planarNorm_eq_zero_iff.mpr ⟨hx, hy⟩
  unfold mkZAxisAligner
  rw [if_neg (fun hok => ((zAlignOK_iff_planar v).mp hok) hp0),
    zAlignCheckVec_of_planar_zero v hp0]

/-- Witness for C10 at the concrete axis (0,0,1). -/
theorem zAxisAligner_zero_planar_fails_witness :
    mkZAxisAligner ⟨0, 0, 1⟩ = Except.error ⟨0, 0, 0⟩ :=
  zAxisAligner_zero_planar_fails ⟨0, 0, 1⟩ rfl rfl

/-! ## RotationSets.quats_to_rotmats (`samplers.py` lines 415-457) -/

/-- A quaternion (w, x, y, z), not necessarily unit length. -/
structure Quat where
  w : ℝ
  x : ℝ
  y : ℝ
  z : ℝ

theorem Quat.eq_iff_wxyz {a b : Quat} :
    a = b ↔ a.w = b.w ∧ a.x = b.x ∧ a.y = b.y ∧ a.z = b.z := by
  cases a; cases b; simp

/-- The rotation matrix of lines 429-452, before the final rounding:
renormalizes through the squared magnitude `Nq` (`s = 1.0 / Nq`, the
scaled components `X, Y, Z = 2*x*s, 2*y*s, 2*z*s`). -/
noncomputable def quatToRotmatExact (q : Quat) : Mat3 :=
  let Nq := q.w ^ 2 + q.x ^ 2 + q.y ^ 2 + q.z ^ 2
  let s := 1 / Nq
  let X := q.x * s * 2
  let Y := q.y * s * 2
  let Z := q.z * s * 2
  ⟨1 - (q.y * Y + q.z * Z), q.x * Y - q.w * Z, q.x * Z + q.w * Y,
   q.x * Y + q.w * Z, 1 - (q.x * X + q.z * Z), q.y * Z - q.w * X,
   q.x * Z - q.w * Y, q.y * Z + q.w * X, 1 - (q.x * X + q.y * Y)⟩

/-- `np.round(t, 8)`: rounding to 8 decimal places (Lean's `round` ties
away from the numpy half-to-even rule only at exact ties, which does not
affect the half-spacing error bound). -/
noncomputable def round8 (t : ℝ) : ℝ := (round (t * 10 ^ 8) : ℤ) / 10 ^ 8

def Mat3.map (f : ℝ → ℝ) (a : Mat3) : Mat3 :=
  ⟨f a.m00, f a.m01, f a.m02, f a.m10, f a.m11, f a.m12, f a.m20, f a.m21, f a.m22⟩

/-- One row of `RotationSets.quats_to_rotmats`: the closed-form matrix with
every entry rounded to 8 decimal places (line 455). -/
noncomputable def quatToRotmat (q : Quat) : Mat3 := (quatToRotmatExact q).map round8

/-- `RotationSets.quats_to_rotmats` on a batch of quaternions. -/
noncomputable def quatsToRotmats (qs : List Quat) : List Mat3 := qs.map quatToRotmat

/-- Entrywise absolute closeness of two matrices. -/
def Mat3.entryClose (a b : Mat3) (eps : ℝ) : Prop :=
  |a.m00 - b.m00| ≤ eps ∧ |a.m01 - b.m01| ≤ eps ∧ |a.m02 - b.m02| ≤ eps ∧
  |a.m10 - b.m10| ≤ eps ∧ |a.m11 - b.m11| ≤ eps ∧ |a.m12 - b.m12| ≤ eps ∧
  |a.m20 - b.m20| ≤ eps ∧ |a.m21 - b.m21| ≤ eps ∧ |a.m22 - b.m22| ≤ eps

theorem round8_close (t : ℝ) : |round8 t - t| ≤ 1 / (2 * 10 ^ 8) := by
  have h := abs_sub_round (t * 10 ^ 8)
  have heq : round8 t - t = ((round (t * 10 ^ 8) : ℝ) - t * 10 ^ 8) / 10 ^ 8 := by
    unfold round8
    ring
  rw [heq, abs_div, abs_of_pos (by norm_num : (0 : ℝ) < 10 ^ 8)]
  rw [show (1 : ℝ) / (2 * 10 ^ 8) = (1 / 2) / 10 ^ 8 by norm_num, abs_sub_comm]
  exact (div_le_div_iff_of_pos_right (by norm_num)).mpr h

set_option maxHeartbeats 1600000 in
/-- Claim C2: for every nonzero quaternion, the conversion formula of
`quats_to_rotmats` (which renormalizes by the squared norm) produces an
orthogonal matrix with determinant +1, and the returned rounded matrix
differs from it by at most half of the 8-decimal rounding spacing per
entry. -/
theorem quatToRotmat_orthogonal (q : Quat) (hq : q ≠ ⟨0, 0, 0, 0⟩) :
    (quatToRotmatExact q).transpose * quatToRotmatExact q = 1 ∧
    (quatToRotmatExact q).det = 1 ∧
    Mat3.entryClose (quatToRotmat q) (quatToRotmatExact q) (1 / (2 * 10 ^ 8)) := by
  have hN : 0 < q.w ^ 2 + q.x ^ 2 + q.y ^ 2 + q.z ^ 2 := by
    by_contra h
    push_neg at h
    have hw : q.w = 0 := by
      nlinarith [sq_nonneg q.w, sq_nonneg q.x, sq_nonneg q.y, sq_nonneg q.z]
    have hx : q.x = 0 := by
      nlinarith [sq_nonneg q.w, sq_nonneg q.x, sq_nonneg q.y, sq_nonneg q.z]
    have hy : q.y = 0 := by
      nlinarith [sq_nonneg q.w, sq_nonneg q.x, sq_nonneg q.y, sq_nonneg q.z]
    have hz : q.z = 0 := by
      nlinarith [sq_nonneg q.w, sq_nonneg q.x, sq_nonneg q.y, sq_nonneg q.z]
    exact hq (Quat.eq_iff_wxyz.mpr ⟨hw, hx, hy, hz⟩)
  have hNne : q.w ^ 2 + q.x ^ 2 + q.y ^ 2 + q.z ^ 2 ≠ 0 := ne_of_gt hN
  refine ⟨?_, ?_, ?_⟩
  · simp only [quatToRotmatExact, Mat3.mul_def, Mat3.mul, Mat3.transpose, Mat3.one_def,
      Mat3.one, Mat3.eq_iff_entries]
    set N := q.w ^ 2 + q.x ^ 2 + q.y ^ 2 + q.z ^ 2 with hNdef
    refine ⟨?_, ?_, ?_, ?_, ?_, ?_, ?_, ?_, ?_⟩ <;> (field_simp; ring)
  · simp only [quatToRotmatExact, Mat3.det]
    set N := q.w ^ 2 + q.x ^ 2 + q.y ^ 2 + q.z ^ 2 with hNdef
    field_simp
    ring
  · simp only [quatToRotmat, Mat3.map, Mat3.entryClose]
    exact ⟨round8_close _, round8_close _, round8_close _, round8_close _, round8_close _,
      round8_close _, round8_close _, round8_close _, round8_close _⟩

/-- Witness for C2 at the concrete non-unit quaternion (2,0,0,0). -/
theorem quatToRotmat_orthogonal_witness :
    Quat.mk 2 0 0 0 ≠ ⟨0, 0, 0, 0⟩ ∧
    ((quatToRotmatExact ⟨2, 0, 0, 0⟩).transpose * quatToRotmatExact ⟨2, 0, 0, 0⟩ = 1 ∧
     (quatToRotmatExact ⟨2, 0, 0, 0⟩).det = 1 ∧
     Mat3.entryClose (quatToRotmat ⟨2, 0, 0, 0⟩) (quatToRotmatExact ⟨2, 0, 0, 0⟩)
       (1 / (2 * 10 ^ 8))) := by
  have h : Quat.mk 2 0 0 0 ≠ ⟨0, 0, 0, 0⟩ := by
    simp [Quat.mk.injEq]
  exact ⟨h, quatToRotmat_orthogonal _ h⟩

/-! ## RotationSets.random_rotation (`samplers.py` lines 459-489) -/

/-- `np.linalg.norm` of a quaternion. -/
noncomputable def Quat.norm (q : Quat) : ℝ :=
  Real.sqrt (q.w ^ 2 + q.x ^ 2 + q.y ^ 2 + q.z ^ 2)

/-- The quaternion constructed at lines 486-487 of `random_rotation` from
the accepted rejection-sampling variates (e1, e2) and (e3, e4); the
preceding `while` loops only decide which variates reach this line
(accepted: each pair's squared norm `< 1`). -/
noncomputable def randomRotationQuat (e1 e2 e3 e4 : ℝ) : Quat :=
  let s1 := e1 ^ 2 + e2 ^ 2
  let s2 := e3 ^ 2 + e4 ^ 2
  let root := Real.sqrt ((1 - s1) / s2)
  ⟨e1, e2, e3 * root, e4 * root⟩

/-- Claim C6: for accepted rejection-sampling variates — `s1 < 1`,
`0 < s2 < 1` — the quaternion built by `random_rotation` has norm exactly
1 in exact real arithmetic. -/
theorem randomRotation_unit_norm (e1 e2 e3 e4 : ℝ)
    (h1 : e1 ^ 2 + e2 ^ 2 < 1) (h2 : 0 < e3 ^ 2 + e4 ^ 2)
    (h2' : e3 ^ 2 + e4 ^ 2 < 1) :
    (randomRotationQuat e1 e2 e3 e4).norm = 1 := by
  have hs2 : e3 ^ 2 + e4 ^ 2 ≠ 0 := ne_of_gt h2
  have hr : 0 ≤ (1 - (e1 ^ 2 + e2 ^ 2)) / (e3 ^ 2 + e4 ^ 2) :=
    div_nonneg (by linarith) (le_of_lt h2)
  have hsq : Real.sqrt ((1 - (e1 ^ 2 + e2 ^ 2)) / (e3 ^ 2 + e4 ^ 2)) ^ 2 =
      (1 - (e1 ^ 2 + e2 ^ 2)) / (e3 ^ 2 + e4 ^ 2) := Real.sq_sqrt hr
  have hnorm : (randomRotationQuat e1 e2 e3 e4).norm =
      Real.sqrt (e1 ^ 2 + e2 ^ 2 +
        (e3 * Real.sqrt ((1 - (e1 ^ 2 + e2 ^ 2)) / (e3 ^ 2 + e4 ^ 2))) ^ 2 +
        (e4 * Real.sqrt ((1 - (e1 ^ 2 + e2 ^ 2)) / (e3 ^ 2 + e4 ^ 2))) ^ 2) := rfl
  have key : e1 ^ 2 + e2 ^ 2 +
      (e3 * Real.sqrt ((1 - (e1 ^ 2 + e2 ^ 2)) / (e3 ^ 2 + e4 ^ 2))) ^ 2 +
      (e4 * Real.sqrt ((1 - (e1 ^ 2 + e2 ^ 2)) / (e3 ^ 2 + e4 ^ 2))) ^ 2 = 1 := by
    rw [mul_pow, mul_pow, hsq]
    field_simp
    ring
  rw [hnorm, key, Real.sqrt_one]

/-- Witness for C6 at the concrete variates (1/2, 1/2, 1/2, 1/2). -/
theorem randomRotation_unit_norm_witness :
    ((1 : ℝ) / 2) ^ 2 + ((1 : ℝ) / 2) ^ 2 < 1 ∧
    (0 : ℝ) < ((1 : ℝ) / 2) ^ 2 + ((1 : ℝ) / 2) ^ 2 ∧
    (randomRotationQuat (1 / 2) (1 / 2) (1 / 2) (1 / 2)).norm = 1 :=
  ⟨by norm_num, by norm_num,
    randomRotation_unit_norm _ _ _ _ (by norm_num) (by norm_num) (by norm_num)⟩

/-! ## RotationSets.local (`samplers.py` lines 403-413) -/

/-- The collection loop of `RotationSets.local`: `stream i` is the i-th
quaternion produced by `random_rotation` (the randomness modelled as an
oracle); a draw is accepted when its rotation angle `2*arccos(w)` does not
exceed `maxRad`.  Python's unbounded `while` is modelled with explicit
fuel; `none` marks exhausted fuel (a still-running loop). -/
noncomputable def localLoop (stream : ℕ → Quat) (maxRad : ℝ) (target : ℕ) :
    ℕ → ℕ → List Quat → Option (List Quat)
  | 0, _, _ => none
  | fuel + 1, i, acc =>
    if acc.length < target then
      if 2 * Real.arccos (stream i).w ≤ maxRad then
        localLoop stream maxRad target fuel (i + 1) (acc ++ [stream i])
      else localLoop stream maxRad target fuel (i + 1) acc
    else some acc

/-- `RotationSets.local(max_angle, nrots)`: collect `nrots - 1` accepted
draws, then append the exact identity quaternion (line 412). -/
noncomputable def localRotations (stream : ℕ → Quat) (fuel : ℕ) (maxAngle : ℝ)
    (nrots : ℕ) : Option (List Quat) :=
  (localLoop stream (deg2rad maxAngle) (nrots - 1) fuel 0 []).map
    (fun qs => qs ++ [⟨1, 0, 0, 0⟩])

theorem localLoop_spec (stream : ℕ → Quat) (maxRad : ℝ) (target : ℕ) :
    ∀ fuel i acc res, localLoop stream maxRad target fuel i acc = some res →
      acc.length ≤ target →
      res.length = target ∧
      ∀ q ∈ res, 2 * Real.arccos q.w ≤ maxRad ∨ q ∈ acc := by
  intro fuel
  induction fuel with
  | zero =>
    intro i acc res h _
    simp only [localLoop] at h
    exact Option.noConfusion h
  | succ fuel ih =>
    intro i acc res h hlen
    simp only [localLoop] at h
    by_cases hc : acc.length < target
    · rw [if_pos hc] at h
      by_cases ha : 2 * Real.arccos (stream i).w ≤ maxRad
      · rw [if_pos ha] at h
        obtain ⟨hl, hm⟩ := ih (i + 1) (acc ++ [stream i]) res h (by simp; omega)
        refine ⟨hl, fun q hq => ?_⟩
        rcases hm q hq with hacc | hmem
        · exact Or.inl hacc
        · rcases List.mem_append.mp hmem with h1 | h2
          · exact Or.inr h1
          · rw [List.mem_singleton] at h2
            rw [h2]
            exact Or.inl ha
      · rw [if_neg ha] at h
        exact ih (i + 1) acc res h hlen
    · rw [if_neg hc] at h
      have hres : acc = res := Option.some.inj h
      subst hres
      exact ⟨by omega, fun q hq => Or.inr hq⟩

/-- Claim C5: whenever `RotationSets.local(max_angle, nrots)` (with
`nrots ≥ 1`) terminates with a result, that result holds exactly `nrots`
quaternions, its last element is exactly the identity quaternion
(1,0,0,0), and every other element has rotation angle `2*arccos(w)` at
most `deg2rad max_angle`. -/
theorem localRotations_spec (stream : ℕ → Quat) (fuel : ℕ) (maxAngle : ℝ)
    (nrots : ℕ) (l : List Quat) (hn : 1 ≤ nrots)
    (h : localRotations stream fuel maxAngle nrots = some l) :
    l.length = nrots ∧ l.getLast? = some ⟨1, 0, 0, 0⟩ ∧
    ∀ q ∈ l.dropLast, 2 * Real.arccos q.w ≤ deg2rad maxAngle := by
  unfold localRotations at h
  rcases Option.map_eq_some'.mp h with ⟨l0, hl0, rfl⟩
  obtain ⟨hlen, hmem⟩ :=
    localLoop_spec stream (deg2rad maxAngle) (nrots - 1) fuel 0 [] l0 hl0 (by simp)
  refine ⟨?_, ?_, ?_⟩
  · simp [hlen]
    omega
  · exact List.getLast?_concat l0
  · intro q hq
    rw [List.dropLast_concat] at hq
    rcases hmem q hq with hacc | hnil
    · exact hacc
    · exact absurd hnil (List.not_mem_nil q)

/-- Witness for C5: a constant identity-quaternion stream, `max_angle`
10 degrees, `nrots = 2`, fuel 3. -/
theorem localRotations_spec_witness :
    localRotations (fun _ => ⟨1, 0, 0, 0⟩) 3 10 2 =
      some [⟨1, 0, 0, 0⟩, ⟨1, 0, 0, 0⟩] ∧
    ([(⟨1, 0, 0, 0⟩ : Quat), ⟨1, 0, 0, 0⟩].length = 2 ∧
     [(⟨1, 0, 0, 0⟩ : Quat), ⟨1, 0, 0, 0⟩].getLast? = some ⟨1, 0, 0, 0⟩ ∧
     ∀ q ∈ [(⟨1, 0, 0, 0⟩ : Quat), ⟨1, 0, 0, 0⟩].dropLast,
       2 * Real.arccos q.w ≤ deg2rad 10) := by
  have hd : (0 : ℝ) ≤ deg2rad 10 := by
    unfold deg2rad
    positivity
  have h0 : localRotations (fun _ => (⟨1, 0, 0, 0⟩ : Quat)) 3 10 2 =
      some [⟨1, 0, 0, 0⟩, ⟨1, 0, 0, 0⟩] := by
    unfold localRotations
    simp only [localLoop]
    norm_num [Real.arccos_one, hd]
  exact ⟨h0, localRotations_spec _ 3 10 2 _ (by norm_num) h0⟩

/-! ## Coordinate arrays and selections

The Structure Accessor is an external collaborator (spec sections 2 and
6); its coordinate get/set interface is modelled from the spec: get
returns a copy of the selected rows, set writes them back preserving all
rows outside the selection. -/

/-- Modelled from the spec (section 6, the Structure Accessor is not among
the provided sources): `get_coordinates(selection)` — the selected rows. -/
def getXYZ (coor : List Vec3) (sel : List ℕ) : List Vec3 :=
  sel.map (fun i => coor.getD i ⟨0, 0, 0⟩)

/-- Modelled from the spec (section 6): `set_coordinates(new, selection)`
writes `new[k]` to row `selection[k]` and preserves all rows outside the
selection. -/
def setXYZ (coor : List Vec3) (sel : List ℕ) (new : List Vec3) : List Vec3 :=
  (sel.zip new).foldl (fun c p => c.set p.1 p.2) coor

/-! ## BackboneRotator (`samplers.py` lines 16-65) -/

/-- The constructed state of `BackboneRotator`: `ndofs = 2 *
len(segment.residues)`, the coordinates captured at construction
(`self._starting_coor`), and the per-torsion origins, aligners and
cumulative atom selections built by `__init__` from the segment's
psi/phi metadata (external Structure Accessor). -/
structure BackboneRotator where
  ndofs : ℕ
  startingCoor : List Vec3
  origins : List Vec3
  aligners : List ZAxisAligner
  atomsToRotate : List (List ℕ)

/-- One iteration of the loop at lines 57-65: skip when the (already
deg2rad-converted) torsion equals exactly 0; otherwise translate the
selected atoms to the origin, rotate by `forward @ Rz(torsion) @
backward`, translate back, and write back. -/
noncomputable def backboneStep (coor : List Vec3) (torsion : ℝ) (origin : Vec3)
    (al : ZAxisAligner) (sel : List ℕ) : List Vec3 :=
  if torsion = 0 then coor
  else
    let R := al.forward_rotation * Rz torsion * al.backward_rotation
    setXYZ coor sel ((getXYZ coor sel).map (fun v => R.mulVec (v - origin) + origin))

/-- The `zip`-driven loop of lines 56-65 (like Python's `zip`, it stops at
the shortest list). -/
noncomputable def backboneApply : List ℝ → List Vec3 → List ZAxisAligner →
    List (List ℕ) → List Vec3 → List Vec3
  | t :: ts, o :: os, a :: als, s :: sels, coor =>
    backboneApply ts os als sels (backboneStep coor t o a s)
  | _, _, _, _, coor => coor

/-- `BackboneRotator.__call__` (lines 47-65): the assertion
`len(torsions) == ndofs` is the dimensionality error (modelled `none`);
then the segment is reset to the construction-time coordinates (line 54,
discarding `segmentCoor`, the segment's current state) and the reversed,
deg2rad-converted torsions are applied. -/
noncomputable def BackboneRotator.call (r : BackboneRotator)
    (segmentCoor : List Vec3) (torsions : List ℝ) : Option (List Vec3) :=
  if torsions.length ≠ r.ndofs then none
  else some (backboneApply (torsions.reverse.map deg2rad) r.origins r.aligners
    r.atomsToRotate r.startingCoor)

theorem backboneApply_all_zero (ts : List ℝ) (h : ∀ t ∈ ts, t = (0 : ℝ)) :
    ∀ os als sels coor, backboneApply ts os als sels coor = coor := by
  induction ts with
  | nil => intro os als sels coor; rfl
  | cons t ts ih =>
    intro os als sels coor
    cases os with
    | nil => rfl
    | cons o os =>
      cases als with
      | nil => rfl
      | cons a als =>
        cases sels with
        | nil => rfl
        | cons s sels =>
          have ht : t = 0 := h t (List.mem_cons_self t ts)
          show backboneApply ts os als sels (backboneStep coor t o a s) = coor
          rw [show backboneStep coor t o a s = coor by
            unfold backboneStep; rw [if_pos ht]]
          exact ih (fun t' ht' => h t' (List.mem_cons_of_mem _ ht')) os als sels coor

/-- Claim C3: every `BackboneRotator.__call__` is absolute, not
cumulative — it first restores the construction-time coordinates, so the
all-zero torsion vector returns the starting geometry (every rotation is
skipped), and the result depends only on the torsion vector of that call,
never on the segment state left by earlier calls. -/
theorem backboneRotator_call_absolute (r : BackboneRotator) :
    (∀ coor, r.call coor (List.replicate r.ndofs 0) = some r.startingCoor) ∧
    (∀ torsions coor coor', r.call coor torsions = r.call coor' torsions) := by
  constructor
  · intro coor
    unfold BackboneRotator.call
    rw [if_neg (by simp)]
    have hts : (List.replicate r.ndofs (0 : ℝ)).reverse.map deg2rad =
        List.replicate r.ndofs 0 := by
      rw [List.reverse_replicate, List.map_replicate]
      simp [deg2rad]
    rw [hts, backboneApply_all_zero _ (fun t ht => List.eq_of_mem_replicate ht)]
  · intro ts c c'
    rfl

/-! ## Translator (`samplers.py` lines 68-74) -/

/-- The ligand coordinates captured by `Translator.__init__`
(`self.coor_to_translate = self.ligand.coor`). -/
structure Translator where
  coorToTranslate : List Vec3

/-- numpy broadcasting of a 1-D vector of length k against an `(n, 3)`
array: k = 3 adds componentwise per row, k = 1 adds the scalar to every
component, any other k raises a broadcast shape error (`none`). -/
def npBroadcastAdd (coor : List Vec3) (trans : List ℝ) : Option (List Vec3) :=
  match trans with
  | [t] => some (coor.map (fun v => ⟨v.x + t, v.y + t, v.z + t⟩))
  | [a, b, c] => some (coor.map (fun v => ⟨v.x + a, v.y + b, v.z + c⟩))
  | _ => none

/-- `Translator.__call__` (lines 73-74): sets the ligand coordinates to
`coor_to_translate + trans` (absolute, via numpy broadcasting); there is
no dimensionality check in the source. -/
def Translator.call (t : Translator) (trans : List ℝ) : Option (List Vec3) :=
  npBroadcastAdd t.coorToTranslate trans

/-- Counterexample to C8 as stated: `Translator.__call__` with a length-1
parameter vector (its ligand DOF count is 3) raises no dimensionality
error — numpy broadcasting silently adds the scalar to every coordinate
component. -/
theorem translator_no_length_check :
    Translator.call ⟨[⟨0, 0, 0⟩]⟩ [1] = some [⟨1, 1, 1⟩] ∧
    [(1 : ℝ)].length ≠ 3 := by
  constructor
  · show npBroadcastAdd [⟨0, 0, 0⟩] [1] = some [⟨1, 1, 1⟩]
    unfold npBroadcastAdd
    norm_num [Vec3.eq_iff_xyz]
  · norm_num

/-- Claim C8 amended: `BackboneRotator.__call__` fails with the
dimensionality (assertion) error exactly when the torsion count differs
from `ndofs`; `Translator.__call__` has no length check — it fails only
when broadcasting is impossible (length neither 1 nor 3) and silently
applies a length-1 vector. -/
theorem paramLength_amended :
    (∀ (r : BackboneRotator) coor ts,
      r.call coor ts = none ↔ ts.length ≠ r.ndofs) ∧
    (∀ (t : Translator) tr,
      t.call tr = none ↔ tr.length ≠ 1 ∧ tr.length ≠ 3) := by
  constructor
  · intro r coor ts
    unfold BackboneRotator.call
    by_cases h : ts.length ≠ r.ndofs
    · rw [if_pos h]
      simp [h]
    · rw [if_neg h]
      simp [h]
  · intro t tr
    rcases tr with _ | ⟨a, _ | ⟨b, _ | ⟨c, _ | ⟨d, rest⟩⟩⟩⟩ <;>
      simp [Translator.call, npBroadcastAdd]

/-! ## Residues and name selections (external Structure Accessor) -/

/-- An atom of the external Structure Accessor: a name and a position. -/
structure Atom where
  name : String
  pos : Vec3

/-- Modelled from the spec (section 6, the Structure Accessor is not
among the provided sources): `select("name", names)` — indices of atoms
whose name is among `names`, in residue order. -/
def selectNames (r : List Atom) (names : List String) : List ℕ :=
  (List.range r.length).filter (fun i => (r.getD i ⟨"", ⟨0, 0, 0⟩⟩).name ∈ names)

/-- Modelled from the spec (section 6): `select("name", names, "!=")` —
the complement selection. -/
def selectNamesNot (r : List Atom) (names : List String) : List ℕ :=
  (List.range r.length).filter (fun i => (r.getD i ⟨"", ⟨0, 0, 0⟩⟩).name ∉ names)

/-- Modelled from the spec (section 6): `extract("name", names).coor` —
positions of the atoms with matching names, in residue order. -/
def extractNames (r : List Atom) (names : List String) : List Vec3 :=
  (r.filter (fun a => a.name ∈ names)).map Atom.pos

/-! ## CBAngleRotator (`samplers.py` lines 77-130) -/

/-- The distinct failure modes of `CBAngleRotator.__init__`:
`RuntimeError` (the configuration error of line 98), `ValueError` from
`ZAxisAligner` (geometry), and `IndexError` from indexing an empty
`extract` result. -/
inductive CBInitError where
  | config
  | geom
  | indexErr

/-- The constructed state of `CBAngleRotator`. -/
structure CBAngleRotator where
  atomsToRotate : List ℕ
  origin : Vec3
  forward : Mat3
  coorToRotate : List Vec3

/-- Lines 109-112: the rotation axis — the cross product of the two
origin-translated rows of `extract("name", ("CA", "CG"))`, divided by its
norm. -/
noncomputable def cbAxis (origin c0 c1 : Vec3) : Vec3 :=
  ((c0 - origin).cross (c1 - origin)).divS ((c0 - origin).cross (c1 - origin)).norm

/-- `CBAngleRotator.__init__` (lines 87-117): `RuntimeError` when the
CA/CB/CG name selection does not have size exactly 3; otherwise the moved
set is every atom whose name is outside the backbone exclusion list, the
origin is the first CB row, and the cached coordinates are
origin-translated and backward-rotated.  Indexing an empty `extract`
raises `IndexError`; the embedded `ZAxisAligner` may raise the geometry
error. -/
noncomputable def mkCBAngleRotator (residue : List Atom) :
    Except CBInitError CBAngleRotator :=
  if (selectNames residue ["CA", "CB", "CG"]).length ≠ 3 then
    Except.error CBInitError.config
  else
    match extractNames residue ["CB"] with
    | [] => Except.error CBInitError.indexErr
    | origin :: _ =>
      match extractNames residue ["CA", "CG"] with
      | c0 :: c1 :: _ =>
        match mkZAxisAligner (cbAxis origin c0 c1) with
        | Except.error _ => Except.error CBInitError.geom
        | Except.ok al =>
          Except.ok ⟨selectNamesNot residue
              ["N", "CA", "C", "O", "CB", "H", "HA", "HB2", "HB3"], origin,
            al.forward_rotation,
            (getXYZ (residue.map Atom.pos)
                (selectNamesNot residue
                  ["N", "CA", "C", "O", "CB", "H", "HA", "HB2", "HB3"])).map
              (fun v => al.backward_rotation.mulVec (v - origin))⟩
      | _ => Except.error CBInitError.indexErr

/-- `CBAngleRotator.__call__` (lines 119-130): `rot_mat = forward @
Rz(deg2rad(angle))`, applied to the cached aligned coordinates, translated
back to the origin and written to the moved atoms. -/
noncomputable def CBAngleRotator.call (d : CBAngleRotator)
    (residueCoor : List Vec3) (angle : ℝ) : List Vec3 :=
  setXYZ residueCoor d.atomsToRotate
    (d.coorToRotate.map (fun v => (d.forward * Rz (deg2rad angle)).mulVec v + d.origin))

def exceptIsOk {ε α : Type _} : Except ε α → Bool
  | Except.ok _ => true
  | Except.error _ => false

theorem mkCB_isOk_of_aligner (residue : List Atom)
    (h3 : (selectNames residue ["CA", "CB", "CG"]).length = 3)
    (o : Vec3) (r1 : List Vec3) (h1 : extractNames residue ["CB"] = o :: r1)
    (c0 c1 : Vec3) (r2 : List Vec3)
    (h2 : extractNames residue ["CA", "CG"] = c0 :: c1 :: r2)
    (al : ZAxisAligner) (ha : mkZAxisAligner (cbAxis o c0 c1) = Except.ok al) :
    exceptIsOk (mkCBAngleRotator residue) = true := by
  unfold mkCBAngleRotator
  rw [if_neg (by omega), h1]
  simp only []
  rw [h2]
  simp only []
  rw [ha]
  rfl

/-- Counterexample to C7 as stated: a residue with two CA atoms, one CB
and no CG does not contain exactly one each of CA/CB/CG, yet its CA/CB/CG
name selection has size 3, so no configuration error is raised — indeed
construction fully succeeds (the two CA rows feed the axis computation in
place of CA and CG). -/
theorem cbAngleRotator_counterexample :
    (selectNames [⟨"CA", ⟨0, 1, 0⟩⟩, ⟨"CA", ⟨0, 0, 1⟩⟩, ⟨"CB", ⟨0, 0, 0⟩⟩]
      ["CG"]).length = 0 ∧
    exceptIsOk (mkCBAngleRotator
      [⟨"CA", ⟨0, 1, 0⟩⟩, ⟨"CA", ⟨0, 0, 1⟩⟩, ⟨"CB", ⟨0, 0, 0⟩⟩]) = true := by
  have h_axis : cbAxis ⟨0, 0, 0⟩ ⟨0, 1, 0⟩ ⟨0, 0, 1⟩ = ⟨1, 0, 0⟩ := by
    unfold cbAxis
    have hcross : (Vec3.mk 0 1 0 - ⟨0, 0, 0⟩).cross (Vec3.mk 0 0 1 - ⟨0, 0, 0⟩) =
        ⟨1, 0, 0⟩ := by
      show (Vec3.sub ⟨0, 1, 0⟩ ⟨0, 0, 0⟩).cross (Vec3.sub ⟨0, 0, 1⟩ ⟨0, 0, 0⟩) = ⟨1, 0, 0⟩
      simp [Vec3.sub, Vec3.cross, Vec3.eq_iff_xyz]
    rw [hcross, show (Vec3.mk 1 0 0).norm = 1 from by unfold Vec3.norm; norm_num]
    simp [Vec3.divS]
  have hp1 : (Vec3.mk 1 0 0).planarNorm ≠ 0 := by
    rw [planarNorm_e1]
    norm_num
  refine ⟨by decide, ?_⟩
  exact mkCB_isOk_of_aligner _ (by decide) _ _ rfl _ _ _ rfl _
    (by rw [h_axis]; exact mkZAxisAligner_eq_ok _ hp1)

/-- Claim C7 amended: `CBAngleRotator` construction fails with the
configuration error if and only if the CA/CB/CG name selection does not
have exactly 3 atoms (a weaker condition than "exactly one of each" —
e.g. two CAs, one CB and no CG also pass); when the selection has size 3
the configuration check passes, though construction may still fail later
with an index or geometry error. -/
theorem cbAngleRotator_config_iff (residue : List Atom) :
    mkCBAngleRotator residue = Except.error CBInitError.config ↔
    (selectNames residue ["CA", "CB", "CG"]).length ≠ 3 := by
  unfold mkCBAngleRotator
  by_cases h : (selectNames residue ["CA", "CB", "CG"]).length ≠ 3
  · rw [if_pos h]
    simp [h]
  · rw [if_neg h]
    constructor
    · intro hcontra
      exfalso
      split at hcontra
      · exact CBInitError.noConfusion (Except.error.inj hcontra)
      · split at hcontra
        · split at hcontra
          · exact CBInitError.noConfusion (Except.error.inj hcontra)
          · exact Except.noConfusion hcontra
        · exact CBInitError.noConfusion (Except.error.inj hcontra)
    · intro hcontra
      exact absurd hcontra h

/-! ## BondRotator (`samplers.py` lines 300-353)

`_find_neighbours_recursively` is a depth-first traversal of the ligand
connectivity graph.  Python's recursion is unbounded; the embedding takes
explicit fuel (one unit per recursion level), and `visitF_closed` proves
that fuel `n` (the atom count) already reaches the fixpoint, so
`BondRotator.__init__` is embedded with fuel `n`.  The `_foundroot`
counter (informational; its ring rejection is commented out in the
source) does not influence the moved-atom set and is not modelled. -/

/-- Lines 334-341: visit `curr` (append it to the visited list), then
recurse into each not-yet-visited neighbour (`np.flatnonzero(conn[curr])`
is the neighbour list `conn curr`). -/
def visitF (conn : ℕ → List ℕ) : ℕ → ℕ → List ℕ → List ℕ
  | 0, _, vis => vis
  | fuel + 1, curr, vis =>
    (conn curr).foldl (fun v b => if b ∈ v then v else visitF conn fuel b v)
      (vis ++ [curr])

/-- Reachability from `s` along connectivity edges on paths that never
expand the `root` atom. -/
inductive ReachAvoid (conn : ℕ → List ℕ) (root s : ℕ) : ℕ → Prop where
  | refl : ReachAvoid conn root s s
  | step {u v : ℕ} : ReachAvoid conn root s u → u ≠ root → v ∈ conn u →
      ReachAvoid conn root s v

theorem foldl_visit_subset (conn : ℕ → List ℕ) (fuel : ℕ)
    (hrec : ∀ curr vis, ∀ x ∈ vis, x ∈ visitF conn fuel curr vis) :
    ∀ (bs acc : List ℕ) (x : ℕ), x ∈ acc →
      x ∈ bs.foldl (fun v b => if b ∈ v then v else visitF conn fuel b v) acc := by
  intro bs
  induction bs with
  | nil => intro acc x hx; exact hx
  | cons b bs ih =>
    intro acc x hx
    simp only [List.foldl_cons]
    by_cases hb : b ∈ acc
    · rw [if_pos hb]
      exact ih acc x hx
    · rw [if_neg hb]
      exact ih _ x (hrec b acc x hx)

theorem visitF_subset (conn : ℕ → List ℕ) :
    ∀ fuel curr vis, ∀ x ∈ vis, x ∈ visitF conn fuel curr vis := by
  intro fuel
  induction fuel with
  | zero => intro curr vis x hx; exact hx
  | succ fuel ih =>
    intro curr vis x hx
    show x ∈ (conn curr).foldl _ (vis ++ [curr])
    exact foldl_visit_subset conn fuel ih (conn curr) (vis ++ [curr]) x
      (List.mem_append_left _ hx)

theorem visitF_sound (conn : ℕ → List ℕ) (root a2i : ℕ) :
    ∀ fuel curr vis,
      curr ≠ root → ReachAvoid conn root a2i curr → root ∈ vis →
      (∀ v ∈ vis, v = root ∨ ReachAvoid conn root a2i v) →
      ∀ x ∈ visitF conn fuel curr vis, x = root ∨ ReachAvoid conn root a2i x := by
  intro fuel
  induction fuel with
  | zero => intro curr vis _ _ _ hvis x hx; exact hvis x hx
  | succ fuel ih =>
    intro curr vis hcurr hreach hroot hvis x hx
    have hacc0 : ∀ v ∈ vis ++ [curr], v = root ∨ ReachAvoid conn root a2i v := by
      intro v hv
      rcases List.mem_append.mp hv with h1 | h2
      · exact hvis v h1
      · rw [List.mem_singleton] at h2
        rw [h2]
        exact Or.inr hreach
    have hfold : ∀ (bs acc : List ℕ), (∀ b ∈ bs, b ∈ conn curr) → root ∈ acc →
        (∀ v ∈ acc, v = root ∨ ReachAvoid conn root a2i v) →
        ∀ x ∈ bs.foldl (fun v b => if b ∈ v then v else visitF conn fuel b v) acc,
          x = root ∨ ReachAvoid conn root a2i x := by
      intro bs
      induction bs with
      | nil => intro acc _ _ hinv x hx; exact hinv x hx
      | cons b bs ihb =>
        intro acc hbs hrootacc hinv x hx
        simp only [List.foldl_cons] at hx
        by_cases hb : b ∈ acc
        · rw [if_pos hb] at hx
          exact ihb acc (fun b' hb' => hbs b' (List.mem_cons_of_mem _ hb')) hrootacc
            hinv x hx
        · rw [if_neg hb] at hx
          have hbreach : ReachAvoid conn root a2i b :=
            ReachAvoid.step hreach hcurr (hbs b (List.mem_cons_self b bs))
          have hbroot : b ≠ root := fun hbr => hb (hbr ▸ hrootacc)
          exact ihb (visitF conn fuel b acc)
            (fun b' hb' => hbs b' (List.mem_cons_of_mem _ hb'))
            (visitF_subset conn fuel b acc root hrootacc)
            (ih b acc hbroot hbreach hrootacc hinv) x hx
    exact hfold (conn curr) (vis ++ [curr]) (fun b hb => hb)
      (List.mem_append_left _ hroot) hacc0 x hx

/-- The number of distinct visited atoms with index below `n`; the
decreasing measure that bounds the traversal's recursion depth. -/
def distinctBelow (n : ℕ) (vis : List ℕ) : ℕ :=
  (vis.toFinset.filter (· < n)).card

theorem distinctBelow_lt (n : ℕ) (vis : List ℕ) (curr : ℕ) (h1 : curr < n)
    (h2 : curr ∉ vis) : distinctBelow n vis < n := by
  unfold distinctBelow
  have hsub : vis.toFinset.filter (· < n) ⊆ Finset.range n := by
    intro x hx
    rw [Finset.mem_filter] at hx
    exact Finset.mem_range.mpr hx.2
  have hnot : curr ∉ vis.toFinset.filter (· < n) := by
    rw [Finset.mem_filter, List.mem_toFinset]
    exact fun hc => h2 hc.1
  calc (vis.toFinset.filter (· < n)).card
      < (Finset.range n).card := by
        apply Finset.card_lt_card
        rw [Finset.ssubset_iff_subset_ne]
        refine ⟨hsub, fun heq => hnot ?_⟩
        rw [heq]
        exact Finset.mem_range.mpr h1
    _ = n := Finset.card_range n

theorem distinctBelow_concat (n : ℕ) (vis : List ℕ) (curr : ℕ) (h1 : curr < n)
    (h2 : curr ∉ vis) :
    distinctBelow n (vis ++ [curr]) = distinctBelow n vis + 1 := by
  unfold distinctBelow
  have htf : (vis ++ [curr]).toFinset = insert curr vis.toFinset := by
    ext x
    simp [or_comm]
  rw [htf, Finset.filter_insert, if_pos h1]
  rw [Finset.card_insert_of_not_mem]
  rw [Finset.mem_filter, List.mem_toFinset]
  exact fun hc => h2 hc.1

theorem distinctBelow_mono (n : ℕ) (v1 v2 : List ℕ) (h : ∀ x ∈ v1, x ∈ v2) :
    distinctBelow n v1 ≤ distinctBelow n v2 := by
  unfold distinctBelow
  apply Finset.card_le_card
  intro x hx
  rw [Finset.mem_filter, List.mem_toFinset] at *
  exact ⟨h x hx.1, hx.2⟩

theorem visitF_closed (conn : ℕ → List ℕ) (n : ℕ)
    (hconn : ∀ u, ∀ b ∈ conn u, b < n) :
    ∀ fuel curr vis, curr < n → curr ∉ vis → n ≤ fuel + distinctBelow n vis →
      curr ∈ visitF conn fuel curr vis ∧
      (∀ u, u ∈ visitF conn fuel curr vis → u ∉ vis →
        ∀ b ∈ conn u, b ∈ visitF conn fuel curr vis) := by
  intro fuel
  induction fuel with
  | zero =>
    intro curr vis hc hnv hfuel
    exact absurd hfuel (by
      have := distinctBelow_lt n vis curr hc hnv
      omega)
  | succ fuel ih =>
    intro curr vis hc hnv hfuel
    have hd := distinctBelow_concat n vis curr hc hnv
    -- The fold invariant: every acc member outside vis has all its
    -- neighbours either already in acc or still pending in bs.
    have hfold : ∀ (bs acc : List ℕ), (∀ b ∈ bs, b < n) →
        (∀ x ∈ vis ++ [curr], x ∈ acc) →
        n ≤ fuel + distinctBelow n acc →
        (∀ u, u ∈ acc → u ∉ vis → ∀ c ∈ conn u, c ∈ acc ∨ c ∈ bs) →
        (∀ x ∈ acc,
          x ∈ bs.foldl (fun v b => if b ∈ v then v else visitF conn fuel b v) acc) ∧
        (∀ u, u ∈ bs.foldl (fun v b => if b ∈ v then v else visitF conn fuel b v) acc →
          u ∉ vis → ∀ c ∈ conn u,
            c ∈ bs.foldl (fun v b => if b ∈ v then v else visitF conn fuel b v) acc) := by
      intro bs
      induction bs with
      | nil =>
        intro acc _ _ _ hinv
        refine ⟨fun x hx => hx, fun u hu hnvu c hcu => ?_⟩
        rcases hinv u hu hnvu c hcu with h | h
        · exact h
        · exact absurd h (List.not_mem_nil c)
      | cons b bs ihb =>
        intro acc hbs hsup hfacc hinv
        simp only [List.foldl_cons]
        by_cases hb : b ∈ acc
        · rw [if_pos hb]
          refine ihb acc (fun b' hb' => hbs b' (List.mem_cons_of_mem _ hb')) hsup hfacc
            (fun u hu hnvu c hcu => ?_)
          rcases hinv u hu hnvu c hcu with h | h
          · exact Or.inl h
          · rcases List.mem_cons.mp h with h' | h'
            · exact Or.inl (h' ▸ hb)
            · exact Or.inr h'
        · rw [if_neg hb]
          have hbn : b < n := hbs b (List.mem_cons_self b bs)
          obtain ⟨hbin, hbclose⟩ := ih b acc hbn hb hfacc
          have hmono : ∀ x ∈ acc, x ∈ visitF conn fuel b acc :=
            fun x hx => visitF_subset conn fuel b acc x hx
          have hfacc2 : n ≤ fuel + distinctBelow n (visitF conn fuel b acc) := by
            have := distinctBelow_mono n acc (visitF conn fuel b acc) hmono
            omega
          have hinv2 : ∀ u, u ∈ visitF conn fuel b acc → u ∉ vis →
              ∀ c ∈ conn u, c ∈ visitF conn fuel b acc ∨ c ∈ bs := by
            intro u hu hnvu c hcu
            by_cases hua : u ∈ acc
            · rcases hinv u hua hnvu c hcu with h | h
              · exact Or.inl (hmono c h)
              · rcases List.mem_cons.mp h with h' | h'
                · exact Or.inl (h' ▸ hbin)
                · exact Or.inr h'
            · exact Or.inl (hbclose u hu hua c hcu)
          obtain ⟨hm2, hc2⟩ := ihb (visitF conn fuel b acc)
            (fun b' hb' => hbs b' (List.mem_cons_of_mem _ hb'))
            (fun x hx => hmono x (hsup x hx)) hfacc2 hinv2
          exact ⟨fun x hx => hm2 x (hmono x hx), hc2⟩
    have hsup0 : ∀ x ∈ vis ++ [curr], x ∈ vis ++ [curr] := fun x hx => hx
    have hfacc0 : n ≤ fuel + distinctBelow n (vis ++ [curr]) := by omega
    have hinv0 : ∀ u, u ∈ vis ++ [curr] → u ∉ vis →
        ∀ c ∈ conn u, c ∈ vis ++ [curr] ∨ c ∈ conn curr := by
      intro u hu hnvu c hcu
      rcases List.mem_append.mp hu with h | h
      · exact absurd h hnvu
      · rw [List.mem_singleton] at h
        exact Or.inr (h ▸ hcu)
    obtain ⟨hmono, hclose⟩ := hfold (conn curr) (vis ++ [curr]) (hconn curr)
      hsup0 hfacc0 hinv0
    exact ⟨hmono curr (List.mem_append_right _ (List.mem_singleton_self curr)),
      hclose⟩

theorem setXYZ_outside (sel : List ℕ) (i : ℕ) (hi : i ∉ sel) :
    ∀ (coor : List Vec3) (new : List Vec3),
      (setXYZ coor sel new)[i]? = coor[i]? := by
  have hgen : ∀ (pairs : List (ℕ × Vec3)), (∀ p ∈ pairs, p.1 ≠ i) →
      ∀ coor : List Vec3,
        (pairs.foldl (fun c p => c.set p.1 p.2) coor)[i]? = coor[i]? := by
    intro pairs
    induction pairs with
    | nil => intro _ coor; rfl
    | cons p ps ih =>
      intro h coor
      simp only [List.foldl_cons]
      rw [ih (fun p' hp' => h p' (List.mem_cons_of_mem _ hp')),
        List.getElem?_set_ne (h p (List.mem_cons_self p ps))]
  intro coor new
  unfold setXYZ
  apply hgen
  intro p hp
  intro hpi
  exact hi (hpi ▸ (List.of_mem_zip hp).1)

/-- The constructed state of `BondRotator` (lines 304-332). -/
structure BondRotator where
  atomsToRotate : List ℕ
  coorToRotate : List Vec3
  t : Vec3
  forward : Mat3

/-- Lines 314-317: `atoms_to_rotate = [root]`, then the recursive
traversal from the second bonded atom.  Fuel `n` (the ligand's atom
count) reaches the traversal fixpoint (`visitF_closed`). -/
def bondAtomsToRotate (conn : ℕ → List ℕ) (n root a2i : ℕ) : List ℕ :=
  visitF conn n a2i [root]

/-- Line 327: the rotation axis `coor_to_rotate[1] /
norm(coor_to_rotate[1, :-1])` of the root-translated moved coordinates. -/
noncomputable def bondAxis (ligandCoor : List Vec3) (atoms : List ℕ) (t : Vec3) :
    Vec3 :=
  (((getXYZ ligandCoor atoms).map (fun v => v - t)).getD 1 ⟨0, 0, 0⟩).divS
    (((getXYZ ligandCoor atoms).map (fun v => v - t)).getD 1 ⟨0, 0, 0⟩).planarNorm

/-- `BondRotator.__init__` (lines 304-332) at the atom-index level
(`root = names.index(a1)`, `a2i = names.index(a2)` resolved by the
external Structure Accessor): traverse the connectivity graph, cache the
root-translated and backward-rotated moved coordinates, and keep the
aligner's forward rotation; the `ZAxisAligner` may raise its geometry
`ValueError`. -/
noncomputable def mkBondRotator (ligandCoor : List Vec3) (conn : ℕ → List ℕ)
    (root a2i : ℕ) : Except Vec3 BondRotator :=
  match mkZAxisAligner (bondAxis ligandCoor
      (bondAtomsToRotate conn ligandCoor.length root a2i)
      (ligandCoor.getD root ⟨0, 0, 0⟩)) with
  | Except.error e => Except.error e
  | Except.ok al =>
    Except.ok ⟨bondAtomsToRotate conn ligandCoor.length root a2i,
      ((getXYZ ligandCoor (bondAtomsToRotate conn ligandCoor.length root a2i)).map
        (fun v => v - ligandCoor.getD root ⟨0, 0, 0⟩)).map al.backward_rotation.mulVec,
      ligandCoor.getD root ⟨0, 0, 0⟩, al.forward_rotation⟩

/-- `BondRotator.__call__` (lines 344-353): `R = forward @ Rz(angle)` (the
angle is used in radians, with no degree conversion), applied to the
cached coordinates, translated by `t`, and written into a fresh copy of
the ligand's current coordinates, which is returned — the ligand itself is
not mutated (the embedding is a pure function of the current state). -/
noncomputable def BondRotator.call (r : BondRotator) (ligandCoor : List Vec3)
    (angle : ℝ) : List Vec3 :=
  setXYZ ligandCoor r.atomsToRotate
    (r.coorToRotate.map (fun v => (r.forward * Rz angle).mulVec v + r.t))

/-- Claim C4: `BondRotator.__call__` returns a new full coordinate array
built from the ligand's current coordinates (the embedding is a pure
function — the stored coordinates are not mutated); every atom outside the
moved set keeps its current coordinates exactly, and the moved set is
exactly the root atom plus the atoms reachable from the second bonded
atom in the connectivity graph without passing through the root. -/
theorem bondRotator_fixed_side (ligandCoor currentCoor : List Vec3)
    (conn : ℕ → List ℕ) (root a2i : ℕ) (r : BondRotator) (angle : ℝ)
    (hconn : ∀ u, ∀ b ∈ conn u, b < ligandCoor.length)
    (ha2 : a2i < ligandCoor.length) (hne : a2i ≠ root)
    (hmk : mkBondRotator ligandCoor conn root a2i = Except.ok r) :
    (∀ i, i ∉ r.atomsToRotate →
      (r.call currentCoor angle)[i]? = currentCoor[i]?) ∧
    (∀ v, v ∈ r.atomsToRotate ↔ v = root ∨ ReachAvoid conn root a2i v) := by
  have hatoms : r.atomsToRotate =
      bondAtomsToRotate conn ligandCoor.length root a2i := by
    unfold mkBondRotator at hmk
    split at hmk
    · exact Except.noConfusion hmk
    · have h := Except.ok.inj hmk
      rw [← h]
  constructor
  · intro i hi
    unfold BondRotator.call
    exact setXYZ_outside r.atomsToRotate i hi currentCoor _
  · intro v
    rw [hatoms]
    unfold bondAtomsToRotate
    constructor
    · intro hv
      exact visitF_sound conn root a2i _ a2i [root] hne ReachAvoid.refl
        (List.mem_singleton_self root)
        (fun w hw => Or.inl (List.mem_singleton.mp hw)) v hv
    · intro hv
      obtain ⟨hin, hclose⟩ := visitF_closed conn ligandCoor.length hconn
        ligandCoor.length a2i [root] ha2 (by simpa using hne) (by omega)
      rcases hv with hv | hreach
      · rw [hv]
        exact visitF_subset conn _ a2i [root] root (List.mem_singleton_self root)
      · induction hreach with
        | refl => exact hin
        | step h1 h2 h3 ihr => exact hclose _ ihr (by simpa using h2) _ h3

/-- The 3-atom path graph 0 - 1 - 2 used by the C4 witness. -/
def conn0 : ℕ → List ℕ := fun u =>
  if u = 0 then [1] else if u = 1 then [0, 2] else if u = 2 then [1] else []

theorem conn0_bound : ∀ u, ∀ b ∈ conn0 u, b < 3 := by
  intro u b hb
  unfold conn0 at hb
  split_ifs at hb <;> simp at hb <;> omega

theorem bondAtoms_conn0 : bondAtomsToRotate conn0 3 0 1 = [0, 1, 2] := by decide

theorem Vec3.sub_x (a b : Vec3) : (a - b).x = a.x - b.x := rfl

theorem Vec3.sub_y (a b : Vec3) : (a - b).y = a.y - b.y := rfl

theorem Vec3.sub_z (a b : Vec3) : (a - b).z = a.z - b.z := rfl

theorem mkBondRotator_witness_eval :
    mkBondRotator [⟨0, 0, 0⟩, ⟨1, 0, 0⟩, ⟨2, 0, 0⟩] conn0 0 1 =
      Except.ok ⟨[0, 1, 2], [⟨0, 0, 0⟩, ⟨0, 0, 1⟩, ⟨0, 0, 2⟩], ⟨0, 0, 0⟩,
        ⟨0, 0, 1, 0, 1, 0, -1, 0, 0⟩⟩ := by
  have hax : bondAxis [⟨0, 0, 0⟩, ⟨1, 0, 0⟩, ⟨2, 0, 0⟩] [0, 1, 2] ⟨0, 0, 0⟩ =
      ⟨1, 0, 0⟩ := by
    unfold bondAxis
    have h1 : ((getXYZ [⟨0, 0, 0⟩, ⟨1, 0, 0⟩, ⟨2, 0, 0⟩] [0, 1, 2]).map
        (fun v => v - (⟨0, 0, 0⟩ : Vec3))).getD 1 ⟨0, 0, 0⟩ = ⟨1, 0, 0⟩ := by
      show Vec3.sub ⟨1, 0, 0⟩ ⟨0, 0, 0⟩ = ⟨1, 0, 0⟩
      simp [Vec3.sub, Vec3.eq_iff_xyz]
    rw [h1, planarNorm_e1]
    simp [Vec3.divS]
  unfold mkBondRotator
  rw [show (List.length [(⟨0, 0, 0⟩ : Vec3), ⟨1, 0, 0⟩, ⟨2, 0, 0⟩]) = 3 from rfl,
    bondAtoms_conn0,
    show (List.getD [(⟨0, 0, 0⟩ : Vec3), ⟨1, 0, 0⟩, ⟨2, 0, 0⟩] 0 ⟨0, 0, 0⟩) =
      (⟨0, 0, 0⟩ : Vec3) from rfl,
    hax, mkZAxisAligner_e1]
  simp only []
  norm_num [getXYZ, Mat3.mulVec, Vec3.eq_iff_xyz, Except.ok.injEq, BondRotator.mk.injEq,
    Vec3.sub_x, Vec3.sub_y, Vec3.sub_z]

/-- Witness for C4: the 3-atom path ligand 0-1-2 (root 0, second bonded
atom 1, all atoms downstream), angle 1, current coordinates [(5,5,5)]. -/
theorem bondRotator_fixed_side_witness :
    (∀ i, i ∉ [0, 1, 2] →
      ((BondRotator.mk [0, 1, 2] [⟨0, 0, 0⟩, ⟨0, 0, 1⟩, ⟨0, 0, 2⟩] ⟨0, 0, 0⟩
          ⟨0, 0, 1, 0, 1, 0, -1, 0, 0⟩).call [⟨5, 5, 5⟩] 1)[i]? =
        [(⟨5, 5, 5⟩ : Vec3)][i]?) ∧
    (∀ v, v ∈ [0, 1, 2] ↔ v = 0 ∨ ReachAvoid conn0 0 1 v) :=
  bondRotator_fixed_side [⟨0, 0, 0⟩, ⟨1, 0, 0⟩, ⟨2, 0, 0⟩] [⟨5, 5, 5⟩] conn0 0 1 _ 1
    conn0_bound (by decide) (by decide) mkBondRotator_witness_eval

/-! ## ChiRotator / BisectingAngleRotator calls and the radians-versus-
degrees discrepancy (claim C9) -/

/-- The constructed state of `ChiRotator` (`__init__`, lines 220-250): the
Gram-Schmidt frame's forward matrix, the origin, the moved-atom selection
and the cached aligned coordinates. -/
structure ChiRotator where
  forward : Mat3
  origin : Vec3
  atomSelection : List ℕ
  coorToRotate : List Vec3

/-- `ChiRotator.__call__` (lines 252-256): `R = forward @
Rz(np.deg2rad(angle))`, applied row-wise, translated by the origin and
written back. -/
noncomputable def ChiRotator.call (d : ChiRotator) (residueCoor : List Vec3)
    (angle : ℝ) : List Vec3 :=
  setXYZ residueCoor d.atomSelection
    (d.coorToRotate.map (fun v => (d.forward * Rz (deg2rad angle)).mulVec v + d.origin))

/-- The constructed state of `BisectingAngleRotator` (lines 144-187). -/
structure BisectingAngleRotator where
  atomsToRotate : List ℕ
  origin : Vec3
  forward : Mat3
  coorToRotate : List Vec3

/-- `BisectingAngleRotator.__call__` (lines 189-195): `R = forward @
Rz(np.deg2rad(angle))`, same pattern as the CB-angle rotator. -/
noncomputable def BisectingAngleRotator.call (d : BisectingAngleRotator)
    (residueCoor : List Vec3) (angle : ℝ) : List Vec3 :=
  setXYZ residueCoor d.atomsToRotate
    (d.coorToRotate.map (fun v => (d.forward * Rz (deg2rad angle)).mulVec v + d.origin))

/-- Identity-frame probe instances: one cached atom at (1,0,0), origin 0,
moving atom 0, alignment frame the identity — each call then exposes the
bare Z rotation the sampler applies. -/
noncomputable def bondProbe : BondRotator := ⟨[0], [⟨1, 0, 0⟩], ⟨0, 0, 0⟩, 1⟩

noncomputable def chiProbe : ChiRotator := ⟨1, ⟨0, 0, 0⟩, [0], [⟨1, 0, 0⟩]⟩

noncomputable def cbProbe : CBAngleRotator := ⟨[0], ⟨0, 0, 0⟩, 1, [⟨1, 0, 0⟩]⟩

noncomputable def bisProbe : BisectingAngleRotator := ⟨[0], ⟨0, 0, 0⟩, 1, [⟨1, 0, 0⟩]⟩

noncomputable def backboneProbe : BackboneRotator :=
  ⟨1, [⟨1, 0, 0⟩], [⟨0, 0, 0⟩], [⟨1, 1⟩], [[0]]⟩

theorem Vec3.add_zero' (v : Vec3) : v + ⟨0, 0, 0⟩ = v := by
  show Vec3.add v ⟨0, 0, 0⟩ = v
  simp [Vec3.add, Vec3.eq_iff_xyz]

theorem Vec3.sub_zero' (v : Vec3) : v - ⟨0, 0, 0⟩ = v := by
  show Vec3.sub v ⟨0, 0, 0⟩ = v
  simp [Vec3.sub, Vec3.eq_iff_xyz]

theorem Rz_mulVec_e1 (t : ℝ) :
    (Rz t).mulVec ⟨1, 0, 0⟩ = ⟨Real.cos t, Real.sin t, 0⟩ := by
  simp [Rz, Mat3.mulVec, Vec3.eq_iff_xyz]

theorem probe_call_eval (c : Vec3) (R : Mat3) :
    setXYZ [c] [0] ([(⟨1, 0, 0⟩ : Vec3)].map (fun v => R.mulVec v + ⟨0, 0, 0⟩)) =
    [R.mulVec ⟨1, 0, 0⟩] := by
  simp only [List.map_cons, List.map_nil, Vec3.add_zero']
  rfl

theorem cos_sin_eq_exists_int (a b : ℝ) (hc : Real.cos a = Real.cos b)
    (hs : Real.sin a = Real.sin b) : ∃ k : ℤ, a - b = 2 * Real.pi * k := by
  have hexp : Complex.exp (a * Complex.I) = Complex.exp (b * Complex.I) := by
    rw [Complex.exp_mul_I, Complex.exp_mul_I, ← Complex.ofReal_cos, ← Complex.ofReal_sin,
      ← Complex.ofReal_cos, ← Complex.ofReal_sin, hc, hs]
  obtain ⟨n, hn⟩ := Complex.exp_eq_exp_iff_exists_int.mp hexp
  refine ⟨n, ?_⟩
  have hn' : (a : ℂ) * Complex.I =
      ((b : ℂ) + (n : ℂ) * (2 * (Real.pi : ℂ))) * Complex.I := by
    rw [hn]
    ring
  have h2 : (a : ℂ) = (b : ℂ) + (n : ℂ) * (2 * (Real.pi : ℂ)) :=
    mul_right_cancel₀ Complex.I_ne_zero hn'
  have h3 : ((a - b : ℝ) : ℂ) = ((2 * Real.pi * (n : ℝ) : ℝ) : ℂ) := by
    push_cast
    rw [h2]
    ring
  exact_mod_cast h3

/-- Claim C9: `BondRotator.__call__` interprets its angle in radians —
`Rz(angle)` directly, no conversion — while `ChiRotator`,
`CBAngleRotator`, `BisectingAngleRotator` and `BackboneRotator` apply
`Rz(deg2rad(angle))`; hence on identical probe geometry the same numeric
argument rotates by different amounts whenever `a` and `deg2rad a` do not
differ by a multiple of 2π. -/
theorem bondRotator_radians_vs_degrees (a : ℝ) :
    bondProbe.call [⟨0, 0, 0⟩] a = [(Rz a).mulVec ⟨1, 0, 0⟩] ∧
    chiProbe.call [⟨0, 0, 0⟩] a = [(Rz (deg2rad a)).mulVec ⟨1, 0, 0⟩] ∧
    cbProbe.call [⟨0, 0, 0⟩] a = [(Rz (deg2rad a)).mulVec ⟨1, 0, 0⟩] ∧
    bisProbe.call [⟨0, 0, 0⟩] a = [(Rz (deg2rad a)).mulVec ⟨1, 0, 0⟩] ∧
    backboneProbe.call [⟨0, 0, 0⟩] [a] = some [(Rz (deg2rad a)).mulVec ⟨1, 0, 0⟩] ∧
    ((¬ ∃ k : ℤ, a - deg2rad a = 2 * Real.pi * k) →
      bondProbe.call [⟨0, 0, 0⟩] a ≠ chiProbe.call [⟨0, 0, 0⟩] a ∧
      bondProbe.call [⟨0, 0, 0⟩] a ≠ cbProbe.call [⟨0, 0, 0⟩] a ∧
      bondProbe.call [⟨0, 0, 0⟩] a ≠ bisProbe.call [⟨0, 0, 0⟩] a ∧
      some (bondProbe.call [⟨0, 0, 0⟩] a) ≠ backboneProbe.call [⟨0, 0, 0⟩] [a]) := by
  have hbond : bondProbe.call [⟨0, 0, 0⟩] a = [(Rz a).mulVec ⟨1, 0, 0⟩] := by
    show setXYZ [⟨0, 0, 0⟩] [0] ([(⟨1, 0, 0⟩ : Vec3)].map
      (fun v => ((1 : Mat3) * Rz a).mulVec v + (⟨0, 0, 0⟩ : Vec3))) = _
    simp only [Mat3.one_mul']
    exact probe_call_eval _ (Rz a)
  have hchi : chiProbe.call [⟨0, 0, 0⟩] a = [(Rz (deg2rad a)).mulVec ⟨1, 0, 0⟩] := by
    show setXYZ [⟨0, 0, 0⟩] [0] ([(⟨1, 0, 0⟩ : Vec3)].map
      (fun v => ((1 : Mat3) * Rz (deg2rad a)).mulVec v + (⟨0, 0, 0⟩ : Vec3))) = _
    simp only [Mat3.one_mul']
    exact probe_call_eval _ (Rz (deg2rad a))
  have hcb : cbProbe.call [⟨0, 0, 0⟩] a = [(Rz (deg2rad a)).mulVec ⟨1, 0, 0⟩] := by
    show setXYZ [⟨0, 0, 0⟩] [0] ([(⟨1, 0, 0⟩ : Vec3)].map
      (fun v => ((1 : Mat3) * Rz (deg2rad a)).mulVec v + (⟨0, 0, 0⟩ : Vec3))) = _
    simp only [Mat3.one_mul']
    exact probe_call_eval _ (Rz (deg2rad a))
  have hbis : bisProbe.call [⟨0, 0, 0⟩] a = [(Rz (deg2rad a)).mulVec ⟨1, 0, 0⟩] := by
    show setXYZ [⟨0, 0, 0⟩] [0] ([(⟨1, 0, 0⟩ : Vec3)].map
      (fun v => ((1 : Mat3) * Rz (deg2rad a)).mulVec v + (⟨0, 0, 0⟩ : Vec3))) = _
    simp only [Mat3.one_mul']
    exact probe_call_eval _ (Rz (deg2rad a))
  have hbb : backboneProbe.call [⟨0, 0, 0⟩] [a] =
      some [(Rz (deg2rad a)).mulVec ⟨1, 0, 0⟩] := by
    unfold BackboneRotator.call backboneProbe
    rw [if_neg (by norm_num)]
    congr 1
    show backboneStep [⟨1, 0, 0⟩] (deg2rad a) ⟨0, 0, 0⟩ ⟨1, 1⟩ [0] = _
    unfold backboneStep
    by_cases h0 : deg2rad a = 0
    · rw [if_pos h0, h0, Rz_mulVec_e1]
      norm_num [Vec3.eq_iff_xyz]
    · rw [if_neg h0]
      show setXYZ [⟨1, 0, 0⟩] [0] ([(⟨1, 0, 0⟩ : Vec3)].map
        (fun v => ((1 : Mat3) * Rz (deg2rad a) * 1).mulVec (v - (⟨0, 0, 0⟩ : Vec3)) +
          (⟨0, 0, 0⟩ : Vec3))) = _
      simp only [Mat3.one_mul', Mat3.mul_one', Vec3.sub_zero']
      exact probe_call_eval _ (Rz (deg2rad a))
  have hneq : (¬ ∃ k : ℤ, a - deg2rad a = 2 * Real.pi * k) →
      [(Rz a).mulVec ⟨1, 0, 0⟩] ≠ [(Rz (deg2rad a)).mulVec (⟨1, 0, 0⟩ : Vec3)] := by
    intro hnex heq
    apply hnex
    have h1 : (Rz a).mulVec ⟨1, 0, 0⟩ = (Rz (deg2rad a)).mulVec ⟨1, 0, 0⟩ := by
      injection heq
    rw [Rz_mulVec_e1, Rz_mulVec_e1, Vec3.eq_iff_xyz] at h1
    exact cos_sin_eq_exists_int a (deg2rad a) h1.1 h1.2.1
  refine ⟨hbond, hchi, hcb, hbis, hbb, fun hnex => ⟨?_, ?_, ?_, ?_⟩⟩
  · rw [hbond, hchi]
    exact hneq hnex
  · rw [hbond, hcb]
    exact hneq hnex
  · rw [hbond, hbis]
    exact hneq hnex
  · rw [hbond, hbb]
    intro heq
    exact hneq hnex (Option.some.inj heq)

/-- Witness for C9 at the concrete angle 180: 180 - deg2rad 180 =
180 - π is not a multiple of 2π (it lies strictly between 2π·28 and
2π·29). -/
theorem bondRotator_radians_vs_degrees_witness :
    (¬ ∃ k : ℤ, (180 : ℝ) - deg2rad 180 = 2 * Real.pi * k) ∧
    bondProbe.call [⟨0, 0, 0⟩] 180 ≠ chiProbe.call [⟨0, 0, 0⟩] 180 := by
  have hd : deg2rad (180 : ℝ) = Real.pi := by
    unfold deg2rad
    ring
  have hnc : ¬ ∃ k : ℤ, (180 : ℝ) - deg2rad 180 = 2 * Real.pi * k := by
    rw [hd]
    rintro ⟨k, hk⟩
    have hgt : (28 : ℝ) < k := by
      nlinarith [Real.pi_gt_d2, Real.pi_lt_d2, Real.pi_pos]
    have hlt : (k : ℝ) < 29 := by
      nlinarith [Real.pi_gt_d2, Real.pi_lt_d2, Real.pi_pos]
    have h1 : (28 : ℤ) < k := by exact_mod_cast hgt
    have h2 : k < (29 : ℤ) := by exact_mod_cast hlt
    omega
  exact ⟨hnc, ((bondRotator_radians_vs_degrees 180).2.2.2.2.2 hnc).1⟩
